import Mathlib

/-!
Verification development for the 1D CLEAN deconvolution code of the
fundamentals-of-interferometry notebook 2_14_CLEAN_in_1D: the Hogbom
minor-cycle engine, the Cotton-Schwab major-cycle controller, the
restoration main-lobe selection and the PSF weighting module.

Shallow embedding conventions: numpy float arrays become lists of exact
rationals, complex arrays become lists of rational pairs, and numpy
operations that raise (ambiguous truth value of a multi-element array,
shape mismatches, int() of a non-scalar) are modelled by Option with
none on the raising path.
-/

namespace Clean1D

/-- Complex numbers with rational parts, embedding numpy complex values. -/
structure CQ where
  re : ℚ
  im : ℚ
  deriving DecidableEq, Repr

/-- Complex addition. -/
def CQ.add (a b : CQ) : CQ := ⟨a.re + b.re, a.im + b.im⟩

/-- Complex subtraction. -/
def CQ.sub (a b : CQ) : CQ := ⟨a.re - b.re, a.im - b.im⟩

/-- Complex multiplication. -/
def CQ.mul (a b : CQ) : CQ := ⟨a.re * b.re - a.im * b.im, a.re * b.im + a.im * b.re⟩

/-- Complex conjugation. -/
def CQ.conj (a : CQ) : CQ := ⟨a.re, -a.im⟩

/-- Sum of a list of complex values. -/
def csum (xs : List CQ) : CQ := xs.foldr CQ.add ⟨0, 0⟩

/-- numpy xs.max(): maximum of a (nonempty) array; numpy raises on an
empty array, which no claim exercises. -/
def npMax (xs : List ℚ) : ℚ := xs.foldl max (xs.headD 0)

/-- Maximum of the absolute values of an array, abs(xs).max(); since all
absolute values are nonnegative, folding from 0 computes the maximum of
any nonempty list (and 0 on the empty list, where numpy raises and the
loop model below returns none anyway because no index attains it). -/
def absMaxQ (xs : List ℚ) : ℚ := xs.foldr (fun x m => max |x| m) 0

/-- np.argwhere(abs(IR) == abs(IR).max()): all indices attaining the
maximum absolute value, in ascending order.  The subsequent .squeeze()
gives a scalar exactly when this list is a singleton; otherwise the use
of the result in a boolean context raises, which the loop models as
none. -/
def peakIdxs (xs : List ℚ) : List ℕ :=
  (List.range xs.length).filter (fun i => decide (|xs.getD i 0| = absMaxQ xs))

/-- np.argwhere(Ipsf == 1.0): the indices at which the PSF equals one
exactly (the code computes the PSF centre this way, relying on the
normalised peak being exactly 1.0). -/
def psfCenters (psf : List ℚ) : List ℕ :=
  (List.range psf.length).filter (fun i => decide (psf.getD i 0 = 1))

/-- Python list/array slice xs[a:b] with step 1: negative indices wrap
from the end and out-of-range bounds clamp silently. -/
def pythonSlice (xs : List ℚ) (a b : ℤ) : List ℚ :=
  let n : ℤ := xs.length
  let a2 : ℤ := if a < 0 then max 0 (n + a) else min a n
  let b2 : ℤ := if b < 0 then max 0 (n + b) else min b n
  (xs.take b2.toNat).drop a2.toNat

/-- The PSF window Ipsf[int(Npsfmax - p) : int(Npsfmax + Npix - p)] of
the subtraction step, for centre index c, peak index p and image size n. -/
def psfWindow (psf : List ℚ) (c p n : ℕ) : List ℚ :=
  pythonSlice psf ((c : ℤ) - p) ((c : ℤ) + n - p)

/-- IR -= s * w with numpy broadcasting: a full-length window subtracts
elementwise, a length-one window broadcasts, and any other shape raises
(none). -/
def subtractPsf (IR w : List ℚ) (s : ℚ) : Option (List ℚ) :=
  if w.length = IR.length then some (List.zipWith (fun r q => r - s * q) IR w)
  else if w.length = 1 then some (IR.map (fun r => r - s * w.getD 0 0))
  else none

/-- IM[p] += d. -/
def bump (xs : List ℚ) (p : ℕ) (d : ℚ) : List ℚ := xs.set p (xs.getD p 0 + d)

/-- One body execution of the Hogbom while loop at peak index p:
IR -= gamma * Ipeak * Ipsf[int(Npsfmax - p):int(Npsfmax + Npix - p)]
and IM[p] += gamma * Ipeak.  int() of Npsfmax raises unless
np.argwhere(Ipsf == 1.0) found exactly one centre. -/
def hogbomBody (psf : List ℚ) (gamma : ℚ) (IM IR : List ℚ) (p : ℕ) :
    Option (List ℚ × List ℚ) :=
  match psfCenters psf with
  | [c] =>
    let v := IR.getD p 0
    (subtractPsf IR (psfWindow psf c p IR.length) (gamma * v)).map
      (fun IR2 => (bump IM p (gamma * v), IR2))
  | _ => none

/-- The Hogbom while loop.  The state is (IM, IR, i) with i the
iteration counter starting at 1; the peak search result feeds both the
guard and the body, and a non-singleton search result raises when the
guard converts it to a boolean (none).  The loop guard bounds the
counter by maxiter, so fuel maxiter + 1 never runs out when the loop is
entered with i = 1. -/
def hogbomLoop (psf : List ℚ) (gamma tol : ℚ) (maxiter : ℕ) :
    ℕ → List ℚ → List ℚ → ℕ → Option (List ℚ × List ℚ × ℕ)
  | 0, _, _, _ => none
  | fuel + 1, IM, IR, i =>
    match peakIdxs IR with
    | [p] =>
      if |IR.getD p 0| > tol ∧ i ≤ maxiter then
        match hogbomBody psf gamma IM IR p with
        | some (IM2, IR2) => hogbomLoop psf gamma tol maxiter fuel IM2 IR2 (i + 1)
        | none => none
      else some (IM, IR, i)
    | _ => none

/-- Hogbom_CLEAN(IR, Ipsf, gamma, tol, maxiter): returns the sky model,
the final residual, the final iteration counter, and whether the
maximum-iterations warning was printed (the code prints it exactly when
i >= maxiter holds at the return). -/
def Hogbom_CLEAN (IR psf : List ℚ) (gamma tol : ℚ) (maxiter : ℕ) :
    Option (List ℚ × List ℚ × ℕ × Bool) :=
  (hogbomLoop psf gamma tol maxiter (maxiter + 1) (List.replicate IR.length 0) IR 1).map
    (fun r => (r.1, r.2.1, r.2.2, decide (maxiter ≤ r.2.2)))

/-- Number of columns of the measurement matrix F (its second shape
component), the length of the image produced by the adjoint transform. -/
def numCols (F : List (List CQ)) : ℕ := (F.headD []).length

/-- np.dot(F, x) for a complex matrix F (rows indexed by samples) and a
real image x: the forward transform of the model. -/
def forwardV (F : List (List CQ)) (x : List ℚ) : List CQ :=
  F.map (fun row => csum (List.zipWith (fun a c => CQ.mul a ⟨c, 0⟩) row x))

/-- np.real(np.dot(F.conj().T, V)): the real part of the adjoint
transform of a visibility vector, on a grid of n pixels. -/
def adjRe (F : List (List CQ)) (V : List CQ) (n : ℕ) : List ℚ :=
  (List.range n).map
    (fun j => (csum (List.zipWith (fun row v => CQ.mul (CQ.conj (row.getD j ⟨0, 0⟩)) v) F V)).re)

/-- Elementwise sum of two real arrays (IMmajor += IM). -/
def zipAdd (a b : List ℚ) : List ℚ := List.zipWith (· + ·) a b

/-- Elementwise difference of two complex arrays (Vobs - Vpred). -/
def zipSubC (a b : List CQ) : List CQ := List.zipWith CQ.sub a b

/-- The CS_CLEAN while loop.  State (IMmajor, IR, i) with i starting at
0.  Each round invokes Hogbom_CLEAN on the current residual with the
default loop gain 1/10 and iteration cap 200 and tolerance
peak_Factor * Ipeak for the current peak value Ipeak, accumulates the
minor model, re-predicts visibilities from the accumulated model,
and re-derives the residual image from the visibility residual divided
by the unnormalised PSF peak.  A tied peak search raises (none), as in
the minor cycle. -/
def csLoop (Vobs : List CQ) (F : List (List CQ)) (psfN : List ℚ)
    (maxPSF peakFactor majortol : ℚ) (maxmajor : ℕ) :
    ℕ → List ℚ → List ℚ → ℕ → Option (List ℚ × List ℚ)
  | 0, _, _, _ => none
  | fuel + 1, IMmajor, IR, i =>
    match peakIdxs IR with
    | [p] =>
      if |IR.getD p 0| > majortol ∧ i ≤ maxmajor then
        match Hogbom_CLEAN IR psfN (1/10) (peakFactor * IR.getD p 0) 200 with
        | some (IM, _, _, _) =>
          let IMmajor2 := zipAdd IMmajor IM
          let IR2 := (adjRe F (zipSubC Vobs (forwardV F IMmajor2)) (numCols F)).map
            (fun x => x / maxPSF)
          csLoop Vobs F psfN maxPSF peakFactor majortol maxmajor fuel IMmajor2 IR2 (i + 1)
        | none => none
      else some (IMmajor, IR)
    | _ => none

/-- CS_CLEAN(Vobs, F, Ipsf, peak_Factor, maxmajoriter, majortol):
normalises the PSF in place by its peak, builds the dirty image, and
runs the major cycle from a zero model; numpy max() raises on an empty
PSF.  Returns the accumulated model and final residual (no warning is
reported by this function). -/
def CS_CLEAN (Vobs : List CQ) (F : List (List CQ)) (Ipsf : List ℚ)
    (peakFactor majortol : ℚ) (maxmajor : ℕ) : Option (List ℚ × List ℚ) :=
  match Ipsf with
  | [] => none
  | _ =>
    let maxPSF := npMax Ipsf
    let psfN := Ipsf.map (fun x => x / maxPSF)
    let ID := (adjRe F Vobs (numCols F)).map (fun x => x / maxPSF)
    csLoop Vobs F psfN maxPSF peakFactor majortol maxmajor (maxmajor + 2)
      (List.replicate ID.length 0) ID 0

/-- The content of the PSF buffer passed to Hogbom_CLEAN after a run:
the function reads PSF slices but never assigns to the array, so the
buffer of the caller is left as it was. -/
def hogbomPsfAfter (psf : List ℚ) : List ℚ := psf

/-- The content of the PSF buffer passed to CS_CLEAN after a run: the
statement Ipsf /= maxPSF divides the array of the caller in place by
its peak before the loop starts, and no later statement writes to it. -/
def csPsfAfter (psf : List ℚ) : List ℚ := psf.map (fun x => x / npMax psf)

/-- The index selection of fit_Gaussian_1D as written:
np.argwhere(Ipsf > 0.5 * Ipsf), which compares every sample with half
of itself and hence selects exactly the strictly positive samples. -/
def mainlobe_code (Ipsf : List ℚ) : List ℕ :=
  (List.range Ipsf.length).filter (fun i => decide ((1/2 : ℚ) * Ipsf.getD i 0 < Ipsf.getD i 0))

/-- Modelled from the spec: the Restoration Module fits the idealized
response to the portion of the PSF exceeding half its peak value (the
main lobe); the code line np.argwhere(Ipsf > 0.5 * Ipsf) was clearly
intended to be np.argwhere(Ipsf > 0.5 * Ipsf.max()). -/
def mainlobe_spec (Ipsf : List ℚ) : List ℕ :=
  (List.range Ipsf.length).filter (fun i => decide ((1/2 : ℚ) * npMax Ipsf < Ipsf.getD i 0))

/-- The per-coordinate weight of inter_PSF: Ws[u<0] = abs((-u)**R) and
Ws[u>=0] = abs(u**R), embedded with an integer exponent (the code uses
machine floats; the claims under test only need the algebra of the
power law). -/
def weightOf (x : ℚ) (R : ℤ) : ℚ := if x < 0 then |(-x) ^ R| else |x ^ R|

/-- The full weight vector over the sampling coordinates. -/
def weightsW (u : List ℚ) (R : ℤ) : List ℚ := u.map (fun x => weightOf x R)

/-- Elementwise product of two real arrays (S * Ws). -/
def zipMul (a b : List ℚ) : List ℚ := List.zipWith (· * ·) a b

/-- inter_PSF without its plotting: weight the sampling indicator S by
the power law in the coordinates u, re-derive the PSF via the adjoint
transform, and normalise by the peak of the new PSF. -/
def inter_PSF (S : List ℚ) (F : List (List CQ)) (u : List ℚ) (R : ℤ) (n : ℕ) : List ℚ :=
  let Ipsf := adjRe F ((zipMul S (weightsW u R)).map (fun w => (⟨w, 0⟩ : CQ))) n
  Ipsf.map (fun x => x / npMax Ipsf)

/-- The unweighted normalised PSF of the notebook: the adjoint of the
bare sampling indicator, divided by its own peak (Ipsf2 / maxPSF). -/
def normPSF (S : List ℚ) (F : List (List CQ)) (n : ℕ) : List ℚ :=
  let Ipsf := adjRe F (S.map (fun w => (⟨w, 0⟩ : CQ))) n
  Ipsf.map (fun x => x / npMax Ipsf)

/-! ### Index and slice lemmas -/

theorem getD_drop (l : List ℚ) (k q : ℕ) : (l.drop k).getD q 0 = l.getD (k + q) 0 := by
  simp [List.getD_eq_getElem?_getD, List.getElem?_drop]

theorem getD_take (l : List ℚ) {m q : ℕ} (h : q < m) : (l.take m).getD q 0 = l.getD q 0 := by
  simp [List.getD_eq_getElem?_getD, List.getElem?_take, h]

theorem getD_zipWith (f : ℚ → ℚ → ℚ) (as bs : List ℚ) (q : ℕ)
    (ha : q < as.length) (hb : q < bs.length) :
    (List.zipWith f as bs).getD q 0 = f (as.getD q 0) (bs.getD q 0) := by
  simp [List.getD_eq_getElem?_getD, List.getElem?_zipWith,
    List.getElem?_eq_getElem, ha, hb]

theorem getD_set_self (xs : List ℚ) (p : ℕ) (a : ℚ) (h : p < xs.length) :
    (xs.set p a).getD p 0 = a := by
  simp [List.getD_eq_getElem?_getD, List.getElem?_set_self h]

theorem getD_set_ne (xs : List ℚ) (p q : ℕ) (a : ℚ) (h : q ≠ p) :
    (xs.set p a).getD q 0 = xs.getD q 0 := by
  simp [List.getD_eq_getElem?_getD, List.getElem?_set_ne (Ne.symm h)]

theorem psfWindow_eq (psf : List ℚ) (c p n : ℕ) (h1 : p ≤ c)
    (h2 : c + n ≤ psf.length + p) :
    psfWindow psf c p n = (psf.take (c - p + n)).drop (c - p) := by
  simp only [psfWindow, pythonSlice]
  have ha : ¬ ((c : ℤ) - p < 0) := by omega
  have hb : ¬ ((c : ℤ) + n - p < 0) := by omega
  rw [if_neg ha, if_neg hb]
  have h3 : min ((c : ℤ) - p) ((psf.length : ℕ) : ℤ) = (c : ℤ) - p := by omega
  have h4 : min ((c : ℤ) + n - p) ((psf.length : ℕ) : ℤ) = (c : ℤ) + n - p := by omega
  rw [h3, h4]
  have e1 : ((c : ℤ) + n - p).toNat = c - p + n := by omega
  have e2 : ((c : ℤ) - p).toNat = c - p := by omega
  rw [e1, e2]

theorem psfWindow_length (psf : List ℚ) (c p n : ℕ) (h1 : p ≤ c)
    (h2 : c + n ≤ psf.length + p) : (psfWindow psf c p n).length = n := by
  rw [psfWindow_eq psf c p n h1 h2]
  simp [List.length_drop, List.length_take]
  omega

theorem psfWindow_getD (psf : List ℚ) (c p n : ℕ) (h1 : p ≤ c)
    (h2 : c + n ≤ psf.length + p) {q : ℕ} (hq : q < n) :
    (psfWindow psf c p n).getD q 0 = psf.getD (c - p + q) 0 := by
  rw [psfWindow_eq psf c p n h1 h2, getD_drop,
    getD_take psf (show c - p + q < c - p + n by omega)]

theorem psfCenters_mem {psf : List ℚ} {c : ℕ} (h : psfCenters psf = [c]) :
    c < psf.length ∧ psf.getD c 0 = 1 := by
  have hc : c ∈ psfCenters psf := by rw [h]; exact List.mem_singleton_self c
  unfold psfCenters at hc
  rcases List.mem_filter.mp hc with ⟨hr, hp⟩
  exact ⟨List.mem_range.mp hr, of_decide_eq_true hp⟩

theorem hogbomBody_eq (psf : List ℚ) (gamma : ℚ) (IM IR : List ℚ) (p c : ℕ)
    (hc : psfCenters psf = [c]) (h1 : p ≤ c) (h2 : c + IR.length ≤ psf.length + p) :
    hogbomBody psf gamma IM IR p =
      some (bump IM p (gamma * IR.getD p 0),
        List.zipWith (fun r q => r - gamma * IR.getD p 0 * q) IR
          (psfWindow psf c p IR.length)) := by
  have hlen : (psfWindow psf c p IR.length).length = IR.length :=
    psfWindow_length psf c p IR.length h1 h2
  simp only [hogbomBody, hc, subtractPsf, hlen, if_pos, Option.map_some']

/-! ### C5: the shifted PSF window stays in bounds -/

/-- C5: when the PSF array has 2N+1 samples and its centre (the index
where the normalised PSF equals its maximal value 1) sits at position
N, the window Ipsf[Npsfmax - p : Npsfmax + Npix - p] used by the
minor-cycle subtraction is a full, unclamped slice for every peak index
p below Npix, provided Npix is at most N + 1 (the notebook uses
Npix = N): both slice bounds are within the array and the extracted
window has exactly Npix entries. -/
theorem psf_window_in_bounds (psf : List ℚ) (N Npix p : ℕ)
    (hlen : psf.length = 2 * N + 1) (hc : psfCenters psf = [N])
    (hNpix : Npix ≤ N + 1) (hp : p < Npix) :
    (0 : ℤ) ≤ (N : ℤ) - p ∧ (N : ℤ) + Npix - p ≤ psf.length ∧
      (psfWindow psf N p Npix).length = Npix ∧ psf.getD N 0 = 1 := by
  refine ⟨by omega, by omega, ?_, (psfCenters_mem hc).2⟩
  exact psfWindow_length psf N p Npix (by omega) (by omega)

/-- Witness for C5 at the concrete PSF [0,0,1,0,0] (N = 2) with
Npix = 2 and peak index p = 1. -/
theorem psf_window_in_bounds_witness :
    (0 : ℤ) ≤ (2 : ℤ) - 1 ∧ (2 : ℤ) + 2 - 1 ≤ (([0, 0, 1, 0, 0] : List ℚ)).length ∧
      (psfWindow [0, 0, 1, 0, 0] 2 1 2).length = 2 ∧
      ([0, 0, 1, 0, 0] : List ℚ).getD 2 0 = 1 :=
  psf_window_in_bounds [0, 0, 1, 0, 0] 2 2 1 (by with_unfolding_all decide)
    (by with_unfolding_all decide) (by with_unfolding_all decide)
    (by with_unfolding_all decide)

theorem getD_mem (l : List ℚ) {i : ℕ} (h : i < l.length) : l.getD i 0 ∈ l := by
  rw [List.getD_eq_getElem?_getD, List.getElem?_eq_getElem h]
  exact List.getElem_mem h

/-! ### C1: one minor-cycle iteration subtracts the shifted PSF and
updates the model at the peak only -/

/-- C1: in a Hogbom iteration with residual peak index p of value v,
the body subtracts gamma * v times the PSF window from the residual,
where entry q of the updated residual loses gamma * v * psf[c - p + q]
for c the index at which the PSF attains the value 1 (its maximal
value when the PSF is normalised, hypothesis hmax), so the PSF is
shifted by c - p and its centre lands exactly on p (the p-th entry
subtracts gamma * v * psf[c] with psf[c] = 1); simultaneously
gamma * v is added to the model at index p and every other model entry
is unchanged. -/
theorem hogbom_minor_step_subtracts_shifted_psf
    (psf : List ℚ) (gamma : ℚ) (IM IR : List ℚ) (p c : ℕ) (v : ℚ)
    (hc : psfCenters psf = [c]) (hmax : ∀ x ∈ psf, x ≤ 1)
    (hp : p < IR.length) (h1 : p ≤ c) (h2 : c + IR.length ≤ psf.length + p)
    (hIM : IM.length = IR.length) (hv : v = IR.getD p 0) :
    ∃ IM2 IR2, hogbomBody psf gamma IM IR p = some (IM2, IR2) ∧
      (∀ q, q < IR.length → IR2.getD q 0 = IR.getD q 0 - gamma * v * psf.getD (c - p + q) 0) ∧
      IR2.getD p 0 = IR.getD p 0 - gamma * v * psf.getD c 0 ∧
      psf.getD c 0 = 1 ∧
      (∀ i, i < psf.length → psf.getD i 0 ≤ psf.getD c 0) ∧
      IM2.getD p 0 = IM.getD p 0 + gamma * v ∧
      (∀ q, q ≠ p → IM2.getD q 0 = IM.getD q 0) := by
  subst hv
  obtain ⟨hclen, hcone⟩ := psfCenters_mem hc
  have hwl : (psfWindow psf c p IR.length).length = IR.length :=
    psfWindow_length psf c p IR.length h1 h2
  refine ⟨_, _, hogbomBody_eq psf gamma IM IR p c hc h1 h2, ?_, ?_, hcone, ?_, ?_, ?_⟩
  · intro q hq
    rw [getD_zipWith _ _ _ _ hq (by omega),
      psfWindow_getD psf c p IR.length h1 h2 hq]
  · rw [getD_zipWith _ _ _ _ hp (by omega),
      psfWindow_getD psf c p IR.length h1 h2 hp]
    have : c - p + p = c := by omega
    rw [this]
  · intro i hi
    rw [hcone]
    exact hmax _ (getD_mem psf hi)
  · exact getD_set_self IM p _ (by omega)
  · intro q hqp
    exact getD_set_ne IM p q _ hqp

/-- Witness for C1: PSF [0,0,1,0,0] with centre 2, residual [3,1],
peak index 0 of value 3, gain 1/10. -/
theorem hogbom_minor_step_subtracts_shifted_psf_witness :
    ∃ IM2 IR2, hogbomBody [0, 0, 1, 0, 0] (1/10) [0, 0] [3, 1] 0 = some (IM2, IR2) ∧
      (∀ q, q < ([3, 1] : List ℚ).length →
        IR2.getD q 0 = ([3, 1] : List ℚ).getD q 0 -
          (1/10) * 3 * ([0, 0, 1, 0, 0] : List ℚ).getD (2 - 0 + q) 0) ∧
      IR2.getD 0 0 = ([3, 1] : List ℚ).getD 0 0 -
        (1/10) * 3 * ([0, 0, 1, 0, 0] : List ℚ).getD 2 0 ∧
      ([0, 0, 1, 0, 0] : List ℚ).getD 2 0 = 1 ∧
      (∀ i, i < ([0, 0, 1, 0, 0] : List ℚ).length →
        ([0, 0, 1, 0, 0] : List ℚ).getD i 0 ≤ ([0, 0, 1, 0, 0] : List ℚ).getD 2 0) ∧
      IM2.getD 0 0 = ([0, 0] : List ℚ).getD 0 0 + (1/10) * 3 ∧
      (∀ q, q ≠ 0 → IM2.getD q 0 = ([0, 0] : List ℚ).getD q 0) :=
  hogbom_minor_step_subtracts_shifted_psf [0, 0, 1, 0, 0] (1/10) [0, 0] [3, 1] 0 2 3
    (by with_unfolding_all decide) (by with_unfolding_all decide)
    (by with_unfolding_all decide) (by with_unfolding_all decide)
    (by with_unfolding_all decide) (by with_unfolding_all decide)
    (by with_unfolding_all rfl)

/-! ### C4: iteration bound; the global peak can grow -/

theorem hogbomLoop_counter_le (psf : List ℚ) (gamma tol : ℚ) (maxiter : ℕ) :
    ∀ fuel IM IR i IM2 IR2 i2,
      hogbomLoop psf gamma tol maxiter fuel IM IR i = some (IM2, IR2, i2) →
      i ≤ maxiter + 1 → i2 ≤ maxiter + 1 := by
  intro fuel
  induction fuel with
  | zero =>
    intro IM IR i IM2 IR2 i2 h
    simp [hogbomLoop] at h
  | succ fuel ih =>
    intro IM IR i IM2 IR2 i2 h hi
    simp only [hogbomLoop] at h
    split at h
    · split at h
      · rename_i hguard
        split at h
        · exact ih _ _ _ _ _ _ h (by omega)
        · simp at h
      · simp at h
        omega
    · simp at h

/-- C4 (amended): with gain in (0,1] the Hogbom loop performs at most
max_minor_iters subtraction steps (the returned counter, which starts
at 1 and is incremented once per subtraction, never exceeds
maxiter + 1), and each subtraction scales the residual value at the
subtracted peak itself by 1 - gain, so the magnitude at that pixel
does not increase; the global residual peak magnitude, however, is not
non-increasing in general (see the counterexample). -/
theorem hogbom_iteration_bound_and_peak_pixel_scaling :
    (∀ IR psf gamma tol maxiter IM R i w,
      Hogbom_CLEAN IR psf gamma tol maxiter = some (IM, R, i, w) → i ≤ maxiter + 1) ∧
    (∀ psf gamma IM IR p c, psfCenters psf = [c] → p < IR.length → p ≤ c →
      c + IR.length ≤ psf.length + p → 0 < gamma → gamma ≤ 1 →
      ∃ IM2 IR2, hogbomBody psf gamma IM IR p = some (IM2, IR2) ∧
        IR2.getD p 0 = (1 - gamma) * IR.getD p 0 ∧
        |IR2.getD p 0| ≤ |IR.getD p 0|) := by
  constructor
  · intro IR psf gamma tol maxiter IM R i w h
    unfold Hogbom_CLEAN at h
    rcases Option.map_eq_some'.mp h with ⟨⟨IM0, R0, i0⟩, hl, he⟩
    simp only [Prod.mk.injEq] at he
    obtain ⟨-, -, hi, -⟩ := he
    subst hi
    exact hogbomLoop_counter_le psf gamma tol maxiter _ _ _ _ _ _ _ hl (by omega)
  · intro psf gamma IM IR p c hc hp h1 h2 hg0 hg1
    obtain ⟨hclen, hcone⟩ := psfCenters_mem hc
    refine ⟨_, _, hogbomBody_eq psf gamma IM IR p c hc h1 h2, ?_⟩
    have hwl : (psfWindow psf c p IR.length).length = IR.length :=
      psfWindow_length psf c p IR.length h1 h2
    have hpt : (List.zipWith (fun r q => r - gamma * IR.getD p 0 * q) IR
        (psfWindow psf c p IR.length)).getD p 0 = (1 - gamma) * IR.getD p 0 := by
      rw [getD_zipWith _ _ _ _ hp (by omega),
        psfWindow_getD psf c p IR.length h1 h2 hp]
      have hcp : c - p + p = c := by omega
      rw [hcp, hcone]
      ring
    refine ⟨hpt, ?_⟩
    rw [hpt, abs_mul, abs_of_nonneg (by linarith : (0:ℚ) ≤ 1 - gamma)]
    calc (1 - gamma) * |IR.getD p 0| ≤ 1 * |IR.getD p 0| := by
          exact mul_le_mul_of_nonneg_right (by linarith) (abs_nonneg _)
      _ = |IR.getD p 0| := one_mul _

/-- Witness for C4 (amended): the concrete run of the counterexample
input stops with counter 2 after one subtraction (maxiter = 1), and a
concrete body application at gain 1/2 scales the peak pixel by 1/2. -/
theorem hogbom_iteration_bound_and_peak_pixel_scaling_witness :
    (2 : ℕ) ≤ 1 + 1 ∧
    ∃ IM2 IR2, hogbomBody [0, 1, 0] (1/2) [0] [1] 0 = some (IM2, IR2) ∧
      IR2.getD 0 0 = (1 - 1/2) * ([1] : List ℚ).getD 0 0 ∧
      |IR2.getD 0 0| ≤ |([1] : List ℚ).getD 0 0| :=
  ⟨hogbom_iteration_bound_and_peak_pixel_scaling.1 [(9/10 : ℚ), 1] [-1, 1, 0] (1/2)
      (1/10) 1 [0, 1/2] [7/5, 1/2] 2 true (by with_unfolding_all decide),
    hogbom_iteration_bound_and_peak_pixel_scaling.2 [0, 1, 0] (1/2) [0] [1] 0 1
      (by with_unfolding_all decide) (by with_unfolding_all decide)
      (by with_unfolding_all decide) (by with_unfolding_all decide)
      (by with_unfolding_all decide) (by with_unfolding_all decide)⟩

/-- Counterexample to C4 as stated: with the normalised PSF [-1, 1, 0]
(peak value 1 at its centre, a sidelobe of -1) and gain 1/2 in (0,1],
one minor-cycle iteration raises the residual peak magnitude from 1 to
7/5, so the peak is not non-increasing from one iteration to the next. -/
theorem hogbom_peak_increase_cex :
    Hogbom_CLEAN [(9/10 : ℚ), 1] [-1, 1, 0] (1/2) (1/10) 1 =
      some ([0, 1/2], [7/5, 1/2], 2, true) ∧
    peakIdxs [(9/10 : ℚ), 1] = [1] ∧
    (0 : ℚ) < 1/2 ∧ (1/2 : ℚ) ≤ 1 ∧
    npMax ([-1, 1, 0] : List ℚ) = 1 ∧
    absMaxQ [(9/10 : ℚ), 1] < absMaxQ [(7/5 : ℚ), 1/2] := by
  with_unfolding_all decide

/-! ### C10: the warning is keyed to the final counter alone -/

/-- C10: the Hogbom maximum-iterations warning is printed exactly when
the final value of the counter i (which starts at 1 and is incremented
once per subtraction) is at least maxiter; consequently the concrete
run below, which terminates by reaching the tolerance after
maxiter - 1 = 1 subtraction, still emits the warning. -/
theorem hogbom_warning_from_final_counter :
    (∀ IR psf gamma tol maxiter IM R i w,
      Hogbom_CLEAN IR psf gamma tol maxiter = some (IM, R, i, w) →
        (w = true ↔ maxiter ≤ i)) ∧
    (Hogbom_CLEAN [(1 : ℚ)] [0, 1, 0] (1/2) (3/4) 2 =
        some ([1/2], [1/2], 2, true) ∧
      absMaxQ [(1 : ℚ)/2] ≤ 3/4) := by
  constructor
  · intro IR psf gamma tol maxiter IM R i w h
    unfold Hogbom_CLEAN at h
    rcases Option.map_eq_some'.mp h with ⟨⟨IM0, R0, i0⟩, hl, he⟩
    simp only [Prod.mk.injEq] at he
    obtain ⟨-, -, hi, hw⟩ := he
    subst hi
    rw [← hw]
    simp [decide_eq_true_iff]
  · constructor
    · with_unfolding_all decide
    · with_unfolding_all decide

/-- Witness for C10: the general warning condition applied to the
concrete converged-but-warned run. -/
theorem hogbom_warning_from_final_counter_witness : (true = true ↔ (2 : ℕ) ≤ 2) :=
  hogbom_warning_from_final_counter.1 [(1 : ℚ)] [0, 1, 0] (1/2) (3/4) 2
    [1/2] [1/2] 2 true (by with_unfolding_all decide)

/-! ### C3: iteration-limit exits are non-fatal but the minor warning
is not exact, and the major cycle reports nothing -/

/-- C3 (amended): exceeding the iteration budget is non-fatal in both
loops: when the counter is beyond the budget the loop stops and
returns the partial model and residual accumulated so far as ordinary
outputs.  The Hogbom warning, however, is printed whenever the final
counter is at least maxiter, so it can also fire on runs that reached
the tolerance within budget (see the counterexample), and CS_CLEAN
reports no warning at all. -/
theorem iteration_limit_nonfatal_returns_partials :
    (∀ psf gamma tol maxiter fuel IM IR i p, peakIdxs IR = [p] → maxiter < i →
      hogbomLoop psf gamma tol maxiter (fuel + 1) IM IR i = some (IM, IR, i)) ∧
    (∀ Vobs F psfN maxPSF peakFactor majortol maxmajor fuel IMmajor IR i p,
      peakIdxs IR = [p] → maxmajor < i →
      csLoop Vobs F psfN maxPSF peakFactor majortol maxmajor (fuel + 1) IMmajor IR i =
        some (IMmajor, IR)) := by
  constructor
  · intro psf gamma tol maxiter fuel IM IR i p hpk hlim
    simp only [hogbomLoop, hpk]
    rw [if_neg (fun hand => absurd hand.2 (by omega))]
  · intro Vobs F psfN maxPSF peakFactor majortol maxmajor fuel IMmajor IR i p hpk hlim
    simp only [csLoop, hpk]
    rw [if_neg (fun hand => absurd hand.2 (by omega))]

/-- Witness for C3 (amended): both loops, entered with the counter past
the budget, return the current partial state. -/
theorem iteration_limit_nonfatal_returns_partials_witness :
    hogbomLoop [(0 : ℚ), 1, 0] (1/10) (1/10) 3 1 [4] [1] 5 = some ([4], [1], 5) ∧
    csLoop [⟨2, 0⟩] [[⟨1, 0⟩]] [(1 : ℚ)] 2 (1/5) (1/100) 3 1 [4] [1] 5 =
      some ([4], [1]) :=
  ⟨iteration_limit_nonfatal_returns_partials.1 [(0 : ℚ), 1, 0] (1/10) (1/10) 3 0 [4] [1] 5 0
      (by with_unfolding_all decide) (by decide),
    iteration_limit_nonfatal_returns_partials.2 [⟨2, 0⟩] [[⟨1, 0⟩]] [(1 : ℚ)] 2 (1/5)
      (1/100) 3 0 [4] [1] 5 0 (by with_unfolding_all decide) (by decide)⟩

/-- Counterexample to C3 as stated: a Hogbom run that reaches the
convergence tolerance within the budget (two subtractions, budget
maxiter = 3, final peak 1/2 below tol = 3/5) and still prints the
maximum-iterations warning, so the warning is not reported exactly
when the tolerance was not reached within the budget. -/
theorem hogbom_warning_on_converged_run_cex :
    Hogbom_CLEAN [(2 : ℚ)] [0, 1, 0] (1/2) (3/5) 3 =
      some ([3/2], [1/2], 3, true) ∧
    absMaxQ [(1 : ℚ)/2] ≤ 3/5 := by
  with_unfolding_all decide

/-! ### C2: the major-cycle loop body -/

/-- C2: one iteration of the CS_CLEAN while loop with current residual
peak index p: it invokes the Hogbom minor cycle on the current residual
with tolerance peak_Factor times the current peak value IR[p] (and the
default gain 1/10 and cap 200), adds the returned model delta to the
running model, and recomputes the residual exactly, as the adjoint of
Vobs - forward(accumulated model) divided by the unnormalised PSF
peak, before continuing with the incremented major counter. -/
theorem cs_major_cycle_body
    (Vobs : List CQ) (F : List (List CQ)) (psfN : List ℚ)
    (maxPSF peakFactor majortol : ℚ) (maxmajor fuel : ℕ)
    (IMmajor IR : List ℚ) (i p : ℕ) (IM R2 : List ℚ) (j : ℕ) (w : Bool)
    (hpk : peakIdxs IR = [p]) (hgt : |IR.getD p 0| > majortol) (hle : i ≤ maxmajor)
    (hhog : Hogbom_CLEAN IR psfN (1/10) (peakFactor * IR.getD p 0) 200 =
      some (IM, R2, j, w)) :
    csLoop Vobs F psfN maxPSF peakFactor majortol maxmajor (fuel + 1) IMmajor IR i =
      csLoop Vobs F psfN maxPSF peakFactor majortol maxmajor fuel
        (zipAdd IMmajor IM)
        ((adjRe F (zipSubC Vobs (forwardV F (zipAdd IMmajor IM))) (numCols F)).map
          (fun x => x / maxPSF))
        (i + 1) := by
  simp only [csLoop, hpk, hhog]
  rw [if_pos (And.intro hgt hle)]

/-- Witness for C2 at a one-pixel, one-sample instance: the Hogbom call
converges after one subtraction and the loop continues with the
re-evaluated residual. -/
theorem cs_major_cycle_body_witness :
    csLoop [⟨2, 0⟩] [[⟨1, 0⟩]] [(1 : ℚ)] 2 (19/20) (1/100) 10 1 [0] [1] 0 =
      csLoop [⟨2, 0⟩] [[⟨1, 0⟩]] [(1 : ℚ)] 2 (19/20) (1/100) 10 0
        (zipAdd [0] [1/10])
        ((adjRe [[⟨1, 0⟩]] (zipSubC [⟨2, 0⟩] (forwardV [[⟨1, 0⟩]] (zipAdd [0] [1/10])))
          (numCols [[⟨1, 0⟩]])).map (fun x => x / 2))
        1 :=
  cs_major_cycle_body [⟨2, 0⟩] [[⟨1, 0⟩]] [(1 : ℚ)] 2 (19/20) (1/100) 10 0 [0] [1] 0 0
    [1/10] [9/10] 2 false (by with_unfolding_all decide)
    (by with_unfolding_all decide) (by decide) (by with_unfolding_all decide)

/-! ### C6: peak search, unique maxima and ties -/

theorem absMaxQ_ge (xs : List ℚ) : ∀ x ∈ xs, |x| ≤ absMaxQ xs := by
  induction xs with
  | nil => simp
  | cons a t ih =>
    intro x hx
    rcases List.mem_cons.mp hx with hxa | hxt
    · subst hxa
      exact le_max_left _ _
    · exact le_trans (ih x hxt) (le_max_right _ _)

theorem absMaxQ_attained (xs : List ℚ) (h : xs ≠ []) : ∃ x ∈ xs, absMaxQ xs = |x| := by
  induction xs with
  | nil => exact absurd rfl h
  | cons a t ih =>
    by_cases ht : t = []
    · subst ht
      exact ⟨a, List.mem_singleton_self a, max_eq_left (abs_nonneg a)⟩
    · obtain ⟨x, hx, hax⟩ := ih ht
      rcases le_total (absMaxQ t) |a| with hle | hle
      · exact ⟨a, List.mem_cons_self a t, max_eq_left hle⟩
      · exact ⟨x, List.mem_cons_of_mem a hx, by rw [show absMaxQ (a :: t) = max |a| (absMaxQ t) from rfl, max_eq_right hle, hax]⟩

theorem filter_range_singleton (P : ℕ → Bool) (n p : ℕ) (hp : p < n)
    (h : ∀ i, i < n → (P i = true ↔ i = p)) : (List.range n).filter P = [p] := by
  induction n with
  | zero => omega
  | succ n ih =>
    rw [List.range_succ, List.filter_append]
    by_cases hpn : p = n
    · subst hpn
      have h1 : (List.range p).filter P = [] := by
        rw [List.filter_eq_nil_iff]
        intro a ha hPa
        have haP : a < p := List.mem_range.mp ha
        have := (h a (by omega)).mp hPa
        omega
      have h2 : P p = true := (h p (by omega)).mpr rfl
      rw [h1]
      simp [h2]
    · have hp2 : p < n := by omega
      rw [ih hp2 (fun i hi => h i (by omega))]
      have h2 : ¬ P n = true := fun hPn => hpn ((h n (by omega)).mp hPn).symm
      simp [h2]

theorem absMaxQ_of_unique_max (xs : List ℚ) (p : ℕ) (hp : p < xs.length)
    (hstrict : ∀ q, q < xs.length → q ≠ p → |xs.getD q 0| < |xs.getD p 0|) :
    absMaxQ xs = |xs.getD p 0| := by
  refine le_antisymm ?_ (absMaxQ_ge xs _ (getD_mem xs hp))
  obtain ⟨x, hx, hax⟩ := absMaxQ_attained xs (by
    intro hnil
    rw [hnil] at hp
    simp at hp)
  rcases List.mem_iff_getElem.mp hx with ⟨q, hq, hxq⟩
  have hgq : xs.getD q 0 = x := by
    rw [List.getD_eq_getElem?_getD, List.getElem?_eq_getElem hq, hxq]
    rfl
  by_cases hqp : q = p
  · subst hqp
    rw [hax, hgq]
  · have := hstrict q hq hqp
    rw [hgq] at this
    rw [hax]
    exact le_of_lt this

/-- C6 (amended): the SEARCHING step computes the ascending list of all
indices attaining the maximum absolute residual value; when that
maximum is attained at a unique index p the search returns exactly [p]
(whose squeeze is the scalar used by the subtraction and model update),
but when several indices tie the list is not a singleton and the run
aborts with an error when the loop guard converts it to a boolean,
rather than selecting the first occurrence (see the counterexample). -/
theorem peak_search_unique_max (xs : List ℚ) (p : ℕ) (hp : p < xs.length)
    (hstrict : ∀ q, q < xs.length → q ≠ p → |xs.getD q 0| < |xs.getD p 0|) :
    peakIdxs xs = [p] := by
  have habs := absMaxQ_of_unique_max xs p hp hstrict
  unfold peakIdxs
  refine filter_range_singleton _ _ _ hp ?_
  intro i hi
  rw [decide_eq_true_iff]
  constructor
  · intro hieq
    by_contra hip
    have := hstrict i hi hip
    rw [hieq, habs] at this
    exact lt_irrefl _ this
  · intro hieq
    subst hieq
    exact habs.symm

/-- Witness for C6 (amended): on the residual [2, 1] the unique peak
search returns exactly [0]. -/
theorem peak_search_unique_max_witness : peakIdxs [(2 : ℚ), 1] = [0] :=
  peak_search_unique_max [(2 : ℚ), 1] 0 (by decide)
    (by with_unfolding_all decide)

/-- Counterexample to C6 as stated: on the residual [1, 1] the peak
search returns both tied indices, not the first occurrence, and the
Hogbom run aborts (the boolean conversion of the two-element result in
the loop guard raises), instead of proceeding at index 0. -/
theorem peak_search_tie_aborts_cex :
    peakIdxs [(1 : ℚ), 1] = [0, 1] ∧ (peakIdxs [(1 : ℚ), 1]).length ≠ 1 ∧
    Hogbom_CLEAN [(1 : ℚ), 1] [0, 1, 0] (1/10) (1/10) 200 = none := by
  with_unfolding_all decide

/-! ### C7: the restoration main-lobe selection -/

/-- C7 (code bug): the line np.argwhere(Ipsf > 0.5 * Ipsf) of
fit_Gaussian_1D compares every PSF sample with half of itself, so it
selects all strictly positive samples instead of the samples exceeding
half the PSF peak; on the PSF [1/5, 1, 1/5] the code selects all three
indices while the intended half-power main lobe is the single index 1. -/
theorem mainlobe_selection_bug :
    mainlobe_code [(1/5 : ℚ), 1, 1/5] = [0, 1, 2] ∧
    mainlobe_spec [(1/5 : ℚ), 1, 1/5] = [1] ∧
    mainlobe_code [(1/5 : ℚ), 1, 1/5] ≠ mainlobe_spec [(1/5 : ℚ), 1, 1/5] := by
  with_unfolding_all decide

/-! ### C8: weighting is sign-symmetric and exponent 0 is a no-op -/

theorem zipMul_ones : ∀ (S u : List ℚ), u.length = S.length →
    List.zipWith (· * ·) S (u.map (fun _ => (1 : ℚ))) = S := by
  intro S
  induction S with
  | nil => intro u _; simp
  | cons a t ih =>
    intro u hu
    cases u with
    | nil => simp at hu
    | cons b u2 =>
      simp only [List.map_cons, List.zipWith_cons_cons, mul_one]
      rw [ih u2 (by simpa using hu)]

/-- C8: the weighting module is sign-symmetric, weight(-u) = weight(u)
for every coordinate u (the code computes abs((-u)**R) on negative
coordinates and abs(u**R) on nonnegative ones), and with exponent 0
every weight is 1, so inter_PSF reproduces the unweighted normalised
PSF exactly. -/
theorem weighting_sign_symmetric_and_exponent_zero :
    (∀ (x : ℚ) (R : ℤ), weightOf (-x) R = weightOf x R) ∧
    (∀ (S : List ℚ) (F : List (List CQ)) (u : List ℚ) (n : ℕ),
      u.length = S.length → inter_PSF S F u 0 n = normPSF S F n) := by
  constructor
  · intro x R
    rcases lt_trichotomy x 0 with hx | hx | hx
    · rw [weightOf, weightOf, if_pos hx, if_neg (by linarith : ¬ -x < 0)]
    · subst hx
      simp [weightOf]
    · rw [weightOf, weightOf, if_neg (by linarith : ¬ x < 0),
        if_pos (by linarith : -x < 0), neg_neg]
  · intro S F u n hlen
    have hw : weightsW u 0 = u.map (fun _ => (1 : ℚ)) := by
      simp [weightsW, weightOf]
    have hSW : zipMul S (weightsW u 0) = S := by
      rw [hw]
      exact zipMul_ones S u hlen
    unfold inter_PSF normPSF
    rw [hSW]

/-- Witness for C8: symmetry at the coordinate 3/2 with exponent 2, and
the exponent-0 identity at a one-sample, one-pixel instance. -/
theorem weighting_sign_symmetric_and_exponent_zero_witness :
    weightOf (-(3/2)) 2 = weightOf (3/2) 2 ∧
    inter_PSF [1] [[⟨1, 0⟩]] [5] 0 1 = normPSF [1] [[⟨1, 0⟩]] 1 :=
  ⟨weighting_sign_symmetric_and_exponent_zero.1 (3/2) 2,
    weighting_sign_symmetric_and_exponent_zero.2 [1] [[⟨1, 0⟩]] [5] 1 rfl⟩

/-! ### C9: which functions mutate the PSF buffer of the caller -/

/-- C9 (amended): the Hogbom engine leaves the PSF array of the caller
unchanged (it only reads slices), and the weighting module writes a
freshly created array rather than any input buffer; CS_CLEAN, however,
normalises the supplied PSF in place (Ipsf /= maxPSF), leaving the
array of the caller unchanged only when its peak is already 1 — which
is why the notebook passes Ipsf2.copy(). -/
theorem psf_mutation_status :
    (∀ psf : List ℚ, hogbomPsfAfter psf = psf) ∧
    (∀ psf : List ℚ, npMax psf = 1 → csPsfAfter psf = psf) := by
  refine ⟨fun psf => rfl, fun psf h => ?_⟩
  unfold csPsfAfter
  rw [h]
  simp

/-- Witness for C9 (amended): a PSF whose peak is already 1 is left
unchanged by the in-place normalisation of CS_CLEAN. -/
theorem psf_mutation_status_witness :
    hogbomPsfAfter [(3 : ℚ)] = [3] ∧ csPsfAfter [(1/2 : ℚ), 1] = [1/2, 1] :=
  ⟨psf_mutation_status.1 [3], psf_mutation_status.2 [1/2, 1] (by with_unfolding_all decide)⟩

/-- Counterexample to C9 as stated: CS_CLEAN divides the PSF array
passed in by its peak before the loop, so a caller PSF with peak 4 is
mutated to [1/2, 1]. -/
theorem cs_clean_mutates_psf_cex :
    csPsfAfter [(2 : ℚ), 4] = [1/2, 1] ∧ csPsfAfter [(2 : ℚ), 4] ≠ [2, 4] := by
  with_unfolding_all decide

end Clean1D
